import Mathlib

set_option maxRecDepth 8192

/-!
# Verification of the AiVoice audio relay core

A shallow embedding, in Lean 4, of the audio-processing core of the
Twilio ↔ Gemini voice relay (`src/index.js`, with the second variant of the
bridge in `src/unnamed/part_000`), together with theorems settling the frozen
claims about its specification.

Modelling conventions:

* PCM samples are modelled as `Int`; μ-law bytes and raw buffer bytes as `Nat`.
  A JavaScript `Int16Array` store is modelled by `wrap16` (reduction into
  `[-32768, 32767]` modulo `2^16`) at the points where a freshly *computed*
  value is stored; copies of values that already sit in an `Int16Array` are
  modelled as plain copies.
* JavaScript 32-bit bitwise operators on the small non-negative operands used
  by the codec (`&`, `|`, `^`, `<<`, `>>`) are modelled by the corresponding
  `Nat` bitwise operations; `~v & 0xff` equals `255 - v` for `v ≤ 255` and is
  modelled that way.
* The real-valued ratio arithmetic of `downsample` (`fromRate / toRate` on
  JavaScript numbers) is modelled in `ℚ`; the concrete ratios exercised by the
  pipeline (for example `24000 / 16000 = 3/2`) are exactly representable in
  binary64, where the two semantics agree.
* The per-call WebSocket handler state (`streamSid`, `sessionReady`,
  `pendingAudio`, the Gemini session handle) is modelled by `RelayState`, and
  each event handler of `src/index.js` by one arm of a `step` function over an
  explicit event type; asynchronous callbacks (Gemini `onopen` / `onclose`,
  the socket `close` event) are separate events in the trace.
-/

/-! ## Codec (`src/index.js` lines 356–391; identically `src/unnamed/part_000` lines 69–104) -/

/-- The exponent-finding loop of `mulawEncodeSample`:
`let exponent = 7; let expMask = 0x4000;
 while ((pcmVal & expMask) === 0 && exponent > 0) \x7b exponent--; expMask >>= 1; \x7d`.
Called as `muExponentLoop pcmVal 7 0x4000`. -/
def muExponentLoop (pcmVal : Nat) : Nat → Nat → Nat
  | 0, _ => 0
  | e + 1, expMask =>
    if pcmVal &&& expMask = 0 then muExponentLoop pcmVal e (expMask >>> 1) else e + 1

/-- `mulawEncodeSample` (`src/index.js` lines 368–391).  The final JavaScript
`~(sign | (exponent << 4) | mantissa) & 0xff` equals `255 - v` for the
byte-sized `v = sign | (exponent << 4) | mantissa`. -/
def mulawEncodeSample (sample : Int) : Nat :=
  let sign : Nat := if sample < 0 then 0x80 else 0
  let pcmVal0 : Int := if sample < 0 then -sample else sample
  let pcmVal1 : Int := if pcmVal0 > 32635 then 32635 else pcmVal0
  let p : Nat := (pcmVal1 + 33).toNat
  let exponent : Nat := muExponentLoop p 7 0x4000
  let mantissa : Nat := (p >>> (exponent + 3)) &&& 0x0f
  255 - (sign ||| (exponent <<< 4) ||| mantissa)

/-- `mulawDecodeByte` (`src/index.js` lines 356–366). -/
def mulawDecodeByte (mu : Nat) : Int :=
  let m : Nat := mu ^^^ 0xff
  let sign : Int := if m &&& 0x80 ≠ 0 then -1 else 1
  let exponent : Nat := (m >>> 4) &&& 0x07
  let mantissa : Nat := m &&& 0x0f
  let magnitude : Nat := ((mantissa <<< 3) + 0x84) <<< exponent
  let sample : Int := sign * ((magnitude : Int) - 0x84)
  if sample > 32767 then 32767 else if sample < -32768 then -32768 else sample

/-- The decode algorithm as worded by the spec (§4.1), in arithmetic rather
than bitwise form: complement all bits; extract sign (bit 7), 3-bit exponent
(bits 6–4), 4-bit mantissa (bits 3–0); magnitude `((mantissa << 3) + 0x84) <<
exponent`, subtract bias `0x84`, apply sign; clamp to int16 range. -/
def mulawDecodeSpecModel (b : Nat) : Int :=
  let c : Nat := 255 - b
  let sign : Int := if c / 128 = 1 then -1 else 1
  let exponent : Nat := c / 16 % 8
  let mantissa : Nat := c % 16
  let magnitude : Int := ((mantissa : Int) * 8 + 0x84) * 2 ^ exponent
  max (-32768) (min 32767 (sign * (magnitude - 0x84)))

/-- Modelled from the spec: "μ-law's quantization step at that magnitude"
(§8).  Adjacent decoder output levels within the exponent segment that
`mulawEncodeSample` assigns to `x` are spaced `8 * 2 ^ exponent` apart, with
the exponent computed exactly as the encoder computes it (magnitude capped at
32635, biased by 33). -/
def muQuantStep (x : Int) : Int :=
  let a : Int := if |x| > 32635 then 32635 else |x|
  8 * 2 ^ muExponentLoop (a + 33).toNat 7 0x4000

/-- The corrected per-magnitude round-trip error bound for this codec: half
the quantization step plus the constant offset 99 contributed by the encoder's
bias of 33 (where the decoder removes a bias of 0x84 = 132); on the clamped
range `|x| > 32635` the error is bounded by 644 (attained at `x = -32768`). -/
def muBound (a : Nat) : Int :=
  if a ≤ 32635 then 4 * 2 ^ muExponentLoop (a + 33) 7 0x4000 + 99 else 644

/-- The exponent `mulawEncodeSample` computes for a biased magnitude `p`. -/
def muE (p : Nat) : Nat := muExponentLoop p 7 0x4000

/-- The mantissa `mulawEncodeSample` computes for a biased magnitude `p`. -/
def muM (p : Nat) : Nat := (p >>> (muE p + 3)) &&& 0x0f

/-- The value `mulawDecodeByte` reconstructs from exponent `muE p` and
mantissa `muM p` (before the sign is applied). -/
def muD (p : Nat) : Int := (((muM p * 8 + 132) * 2 ^ muE p : Nat) : Int) - 132

/-! ## Resampler (`src/index.js` lines 393–426; `src/unnamed/part_000` lines 125–145) -/

/-- Storing an integer into a JavaScript `Int16Array` slot: reduction modulo
`2^16` into the signed 16-bit range. -/
def wrap16 (v : Int) : Int :=
  (v + 32768) % 65536 - 32768

/-- `Math.round((s0 + s1) / 2)` on integer `s0`, `s1`: `Math.round` rounds
half toward `+∞`, so this is `⌊(s0 + s1 + 1) / 2⌋`; `/` on `Int` with the
positive literal 2 is exactly that floor division. -/
def midRound (s0 s1 : Int) : Int :=
  (s0 + s1 + 1) / 2

/-- `upsample8kTo16k` (`src/index.js` lines 393–406; behaviourally identical
in `src/unnamed/part_000` lines 125–136, where the out-of-bounds writes on an
empty input are silently ignored).  The loop writes `out[2i] = s[i]` and
`out[2i+1] = Math.round((s[i] + s[i+1]) / 2)` for `i < n - 1`, then the final
two slots both receive the last input sample; written as the equivalent
structural recursion. -/
def upsample8kTo16k : List Int → List Int
  | [] => []
  | [a] => [wrap16 a, wrap16 a]
  | a :: b :: rest => wrap16 a :: wrap16 (midRound a b) :: upsample8kTo16k (b :: rest)

/-- `downsample16kTo8k` (`src/index.js` lines 408–415): output length
`Math.floor(n / 2)`, copying `out[j] = in[2j]`; written as the equivalent
structural recursion (a trailing odd sample is dropped). -/
def downsample16kTo8k : List Int → List Int
  | [] => []
  | [_] => []
  | a :: _ :: rest => a :: downsample16kTo8k rest

namespace Part0

/-- `downsample16kTo8k` of the second variant (`src/unnamed/part_000` lines
138–145): output length `Math.ceil(n / 2)`, copying every even-indexed
sample including a trailing odd one. -/
def downsample16kTo8k : List Int → List Int
  | [] => []
  | [a] => [a]
  | a :: _ :: rest => a :: Part0.downsample16kTo8k rest

end Part0

/-- `downsample` (`src/index.js` lines 417–426).  The JavaScript real-valued
`ratio = fromRate / toRate` is modelled in `ℚ` (exact for the binary64-
representable ratios the pipeline uses). -/
def downsample (source : List Int) (fromRate toRate : Nat) : List Int :=
  if fromRate = toRate then source
  else
    let ratio : ℚ := (fromRate : ℚ) / (toRate : ℚ)
    let newLength : Nat := (⌊(source.length : ℚ) / ratio⌋).toNat
    (List.range newLength).map fun (i : Nat) => source.getD (⌊(i : ℚ) * ratio⌋).toNat 0

/-- The sample-level core of `convertGeminiAudioToMulawBase64`
(`src/index.js` lines 300–338): base64 decoding and the `rate=<Hz>` mime-type
match are modelled by receiving the PCM16 samples and the declared rate
directly; then rate normalisation via `downsample`, `downsample16kTo8k`, and
per-sample μ-law encoding. -/
def convertGeminiAudioToMulaw (samples : List Int) (sampleRate : Nat) : List Nat :=
  let int16 :=
    if sampleRate = 24000 then downsample samples 24000 16000
    else if sampleRate ≠ 16000 then downsample samples sampleRate 16000
    else samples
  (downsample16kTo8k int16).map mulawEncodeSample

/-- The sample-level core of `convertMulawBase64ToPcm16Base64`
(`src/index.js` lines 282–298): μ-law byte-wise decode
(`muLawBufferToPcm16Int16Array`, lines 340–346) then `upsample8kTo16k`. -/
def convertMulawToPcm16k (payload : List Nat) : List Int :=
  upsample8kTo16k (payload.map mulawDecodeByte)

/-! ## Per-call session model (`src/index.js` lines 88–280)

One `RelayState` per accepted Twilio connection, holding the handler-closure
variables `streamSid`, `sessionReady`, `pendingAudio`, the Gemini session
handle, the Twilio socket state, and — for observability — the frames
delivered to each side and the number of `close()` calls issued on each
handle.  Each external signal (a Twilio event, a Gemini callback, the socket
`close` event) is one `RelayEvent`; `step` is the corresponding handler. -/

/-- One `parts` entry of a Gemini server message: an inline audio payload
(PCM16 samples with the `rate=<Hz>` declared in its mime type) and/or text. -/
structure GeminiPart where
  audio : Option (List Int × Nat)
  text : Option String
  deriving DecidableEq

/-- The per-connection mutable state of the `wss.on('connection')` closure,
plus delivery/close-count observations. -/
structure RelayState where
  /-- The Gemini session handle is non-null (it is assigned once at setup
  and never cleared). -/
  hasSession : Bool
  /-- `sessionReady` (`src/index.js` line 93): set by the Gemini `onopen`
  callback, cleared by `onclose`. -/
  sessionReady : Bool
  /-- `streamSid` (line 91): set by the Twilio `start` event. -/
  streamSid : Option String
  /-- `pendingAudio` (line 94): converted PCM chunks queued before
  readiness. -/
  pendingAudio : List (List Int)
  /-- Whether the Twilio WebSocket is in the OPEN ready-state. -/
  wsOpen : Bool
  /-- Audio chunks delivered to the Gemini session, in send order. -/
  sentToGemini : List (List Int)
  /-- Media frames (streamSid, μ-law bytes) delivered to the Twilio socket,
  in send order. -/
  sentToTwilio : List (String × List Nat)
  /-- Number of `geminiSession.close()` calls issued. -/
  geminiCloseCalls : Nat
  /-- Number of `ws.close()` calls issued. -/
  wsCloseCalls : Nat
  deriving DecidableEq

/-- The state right after `ai.live.connect` resolves for a fresh
connection. -/
def initState : RelayState :=
  { hasSession := true, sessionReady := false, streamSid := none,
    pendingAudio := [], wsOpen := true, sentToGemini := [], sentToTwilio := [],
    geminiCloseCalls := 0, wsCloseCalls := 0 }

/-- The external signals driving one session, in arrival order. -/
inductive RelayEvent where
  /-- Twilio `start` event carrying `streamSid`. -/
  | twilioStart (sid : String)
  /-- Twilio `media` event carrying a μ-law payload (base64 modelled as the
  byte list). -/
  | twilioMedia (payload : List Nat)
  /-- Twilio `stop` event. -/
  | twilioStop
  /-- The Twilio WebSocket `close` event. -/
  | twilioWsClosed
  /-- The Gemini `onopen` callback. -/
  | geminiOpen
  /-- The Gemini `onmessage` callback with `serverContent.modelTurn.parts`
  (`none` models a message with no parts array). -/
  | geminiMessage (parts : Option (List GeminiPart))
  /-- The Gemini `onclose` callback. -/
  | geminiClosed
  deriving DecidableEq

/-- `sendAudioChunkToGemini` (`src/index.js` lines 220–236): guarded by
`!geminiSession || !sessionReady`. -/
def sendAudioChunkToGemini (st : RelayState) (chunk : List Int) : RelayState :=
  if ¬ (st.hasSession ∧ st.sessionReady) then st
  else { st with sentToGemini := st.sentToGemini ++ [chunk] }

/-- `flushPendingAudio` (`src/index.js` lines 208–218): early-return on an
empty queue, otherwise send every queued chunk in order and clear the
queue. -/
def flushPendingAudio (st : RelayState) : RelayState :=
  if st.pendingAudio = [] then st
  else { st.pendingAudio.foldl sendAudioChunkToGemini st with pendingAudio := [] }

/-- The body of the `for (const part of parts)` loop of `handleGeminiMessage`
(`src/index.js` lines 246–278): an audio part with a payload is converted and
sent to Twilio when the socket is open (an empty conversion result is skipped
as a falsy base64 string); text and other parts are only logged. -/
def forwardGeminiPart (sid : String) (s : RelayState) (part : GeminiPart) : RelayState :=
  match part.audio with
  | some (samples, rate) =>
    let bytes := convertGeminiAudioToMulaw samples rate
    if bytes = [] then s
    else if s.wsOpen then { s with sentToTwilio := s.sentToTwilio ++ [(sid, bytes)] }
    else s
  | none => s

/-- `handleGeminiMessage` (`src/index.js` lines 238–279): drop the whole
message unless it has a parts array and a `streamSid` is assigned; otherwise
forward each part. -/
def handleGeminiMessage (st : RelayState) (parts : Option (List GeminiPart)) : RelayState :=
  match parts, st.streamSid with
  | none, _ => st
  | some _, none => st
  | some ps, some sid => ps.foldl (forwardGeminiPart sid) st

/-- One event-handler invocation (`src/index.js` lines 142–206 for the Twilio
events and socket close, lines 118–134 for the Gemini callbacks). -/
def step (st : RelayState) : RelayEvent → RelayState
  | .twilioStart sid => { st with streamSid := some sid }
  | .twilioMedia payload =>
    if ¬ st.hasSession then st
    else
      let chunk := convertMulawToPcm16k payload
      if chunk = [] then st
      else if st.sessionReady then sendAudioChunkToGemini st chunk
      else { st with pendingAudio := st.pendingAudio ++ [chunk] }
  | .twilioStop =>
    if st.hasSession then { st with geminiCloseCalls := st.geminiCloseCalls + 1 } else st
  | .twilioWsClosed =>
    if st.hasSession then { st with geminiCloseCalls := st.geminiCloseCalls + 1 } else st
  | .geminiOpen => flushPendingAudio { st with sessionReady := true }
  | .geminiMessage parts => handleGeminiMessage st parts
  | .geminiClosed =>
    let st1 := { st with sessionReady := false }
    if st1.wsOpen then { st1 with wsCloseCalls := st1.wsCloseCalls + 1, wsOpen := false }
    else st1

/-- A whole session: fold the handlers over the arrival-ordered signals. -/
def run (st : RelayState) (events : List RelayEvent) : RelayState :=
  events.foldl step st

/-! ## Helper lemmas -/

theorem wrap16_eq_self {v : Int} (h1 : -32768 ≤ v) (h2 : v ≤ 32767) : wrap16 v = v := by
  unfold wrap16; omega

theorem midRound_mem_int16 {a b : Int} (ha1 : -32768 ≤ a) (ha2 : a ≤ 32767)
    (hb1 : -32768 ≤ b) (hb2 : b ≤ 32767) :
    -32768 ≤ midRound a b ∧ midRound a b ≤ 32767 := by
  unfold midRound; omega

theorem downsample16kTo8k_length (s : List Int) :
    (downsample16kTo8k s).length = s.length / 2 := by
  induction s using downsample16kTo8k.induct with
  | case1 => rfl
  | case2 => simp [downsample16kTo8k]
  | case3 a b rest ih => simp [downsample16kTo8k, ih]; omega

theorem part0_downsample16kTo8k_length (s : List Int) :
    (Part0.downsample16kTo8k s).length = (s.length + 1) / 2 := by
  induction s using Part0.downsample16kTo8k.induct with
  | case1 => rfl
  | case2 => simp [Part0.downsample16kTo8k]
  | case3 a b rest ih => simp [Part0.downsample16kTo8k, ih]; omega

theorem downsample16kTo8k_getD (i : Nat) :
    ∀ s : List Int, i < s.length / 2 →
      (downsample16kTo8k s).getD i 0 = s.getD (2 * i) 0 := by
  induction i with
  | zero =>
    intro s hs
    cases s with
    | nil => simp at hs
    | cons a t =>
      cases t with
      | nil => simp only [List.length_cons, List.length_nil] at hs; omega
      | cons b rest => rfl
  | succ i ih =>
    intro s hs
    cases s with
    | nil => simp at hs
    | cons a t =>
      cases t with
      | nil => simp only [List.length_cons, List.length_nil] at hs; omega
      | cons b rest =>
        have hr : i < rest.length / 2 := by
          simp only [List.length_cons] at hs; omega
        have h2 : 2 * (i + 1) = 2 * i + 1 + 1 := by ring
        simp only [downsample16kTo8k, h2, List.getD_cons_succ]
        exact ih rest hr

theorem part0_downsample16kTo8k_getD (i : Nat) :
    ∀ s : List Int, i < (s.length + 1) / 2 →
      (Part0.downsample16kTo8k s).getD i 0 = s.getD (2 * i) 0 := by
  induction i with
  | zero =>
    intro s hs
    cases s with
    | nil => simp at hs
    | cons a t =>
      cases t with
      | nil => rfl
      | cons b rest => rfl
  | succ i ih =>
    intro s hs
    cases s with
    | nil => simp at hs
    | cons a t =>
      cases t with
      | nil => simp only [List.length_cons, List.length_nil] at hs; omega
      | cons b rest =>
        have hr : i < (rest.length + 1) / 2 := by
          simp only [List.length_cons] at hs; omega
        have h2 : 2 * (i + 1) = 2 * i + 1 + 1 := by ring
        simp only [Part0.downsample16kTo8k, h2, List.getD_cons_succ]
        exact ih rest hr

/-! ## Claims C1 and C2 -/

/-- **C1, counterexample.** On the odd-length input `[5, 6, 7]`,
`downsample16kTo8k` of `src/index.js` returns a list of length
`⌊3 / 2⌋ = 1`, not `⌈3 / 2⌉ = 2`, and drops the even-indexed sample `7`. -/
theorem downsample2x_ceil_counterexample :
    ¬ ((downsample16kTo8k [5, 6, 7]).length = (([5, 6, 7] : List Int).length + 1) / 2 ∧
       downsample16kTo8k [5, 6, 7] = [5, 7]) := by
  decide

/-- **C1, amended.** `downsample16kTo8k` of `src/index.js` keeps even-indexed
samples but only up to output length `⌊len / 2⌋` — on odd-length inputs the
final even-indexed sample is dropped; the variant in `src/unnamed/part_000`
keeps every even-indexed sample, with output length `⌈len / 2⌉`, exactly as
the original claim states. -/
theorem downsample2x_even_indexed (s : List Int) :
    ((downsample16kTo8k s).length = s.length / 2 ∧
      ∀ i, i < s.length / 2 → (downsample16kTo8k s).getD i 0 = s.getD (2 * i) 0) ∧
    ((Part0.downsample16kTo8k s).length = (s.length + 1) / 2 ∧
      ∀ i, i < (s.length + 1) / 2 →
        (Part0.downsample16kTo8k s).getD i 0 = s.getD (2 * i) 0) := by
  refine ⟨⟨downsample16kTo8k_length s, fun i hi => downsample16kTo8k_getD i s hi⟩,
    ⟨part0_downsample16kTo8k_length s, fun i hi => part0_downsample16kTo8k_getD i s hi⟩⟩

/-- Witness for `downsample2x_even_indexed` at the concrete input
`[10, 20, 30, 40, 50]`. -/
theorem downsample2x_even_indexed_witness :
    (downsample16kTo8k [10, 20, 30, 40, 50]).getD 1 0 =
        ([10, 20, 30, 40, 50] : List Int).getD 2 0 ∧
      (Part0.downsample16kTo8k [10, 20, 30, 40, 50]).getD 2 0 =
        ([10, 20, 30, 40, 50] : List Int).getD 4 0 :=
  ⟨((downsample2x_even_indexed [10, 20, 30, 40, 50]).1.2 1 (by decide)),
   ((downsample2x_even_indexed [10, 20, 30, 40, 50]).2.2 2 (by decide))⟩

/-- **C2.** For every byte, `mulawDecodeByte` computes exactly the spec's
complement / sign / exponent / mantissa / bias / clamp algorithm, and its
output always lies in the signed 16-bit range. -/
theorem mulawDecodeByte_matches_spec :
    ∀ b : Fin 256, mulawDecodeByte b = mulawDecodeSpecModel b ∧
      -32768 ≤ mulawDecodeByte b ∧ mulawDecodeByte b ≤ 32767 := by
  decide

/-! ## Claim C3: codec round trip

The exponent loop characterised through `Nat.testBit`, the byte-level
decode-of-encode bridge settled by finite enumeration, and the per-segment
error bound settled by linear arithmetic. -/

theorem muExponentLoop_le (p : Nat) : ∀ k mask, muExponentLoop p k mask ≤ k := by
  intro k
  induction k with
  | zero => intro mask; simp [muExponentLoop]
  | succ k ih =>
    intro mask
    rw [muExponentLoop]
    split
    · exact Nat.le_succ_of_le (ih _)
    · exact Nat.le_refl _

theorem muExponentLoop_spec (p : Nat) :
    ∀ k, (muExponentLoop p k (2 ^ (k + 7)) = 0 ∨
            p.testBit (muExponentLoop p k (2 ^ (k + 7)) + 7) = true) ∧
         (∀ j, muExponentLoop p k (2 ^ (k + 7)) < j → j ≤ k → p.testBit (j + 7) = false) := by
  intro k
  induction k with
  | zero =>
    refine ⟨Or.inl rfl, fun j hj1 hj2 => absurd (Nat.lt_of_lt_of_le hj1 hj2) ?_⟩
    simp [muExponentLoop]
  | succ k ih =>
    have hshift : (2 ^ (k + 1 + 7) : Nat) >>> 1 = 2 ^ (k + 7) := by
      rw [Nat.shiftRight_succ, Nat.shiftRight_zero, show k + 1 + 7 = (k + 7) + 1 from rfl,
        Nat.pow_succ, Nat.mul_div_cancel _ (by omega)]
    rw [muExponentLoop]
    split
    · rename_i hzero
      have hbit : p.testBit (k + 1 + 7) = false := by
        have h2 := Nat.and_two_pow p (k + 1 + 7)
        rw [hzero] at h2
        by_contra hc
        rw [Bool.not_eq_false] at hc
        rw [hc] at h2
        simp at h2
        exact absurd h2.symm (Nat.pos_pow_of_pos _ (by omega)).ne'
      rw [hshift]
      refine ⟨(ih).1, fun j hj1 hj2 => ?_⟩
      rcases Nat.lt_or_ge j (k + 1) with hj | hj
      · exact (ih).2 j hj1 (by omega)
      · have : j = k + 1 := by omega
        subst this
        exact hbit
    · rename_i hnz
      have hbit : p.testBit (k + 1 + 7) = true := by
        have h2 := Nat.and_two_pow p (k + 1 + 7)
        by_contra hc
        rw [Bool.not_eq_true] at hc
        rw [hc] at h2
        simp at h2
        exact hnz h2
      exact ⟨Or.inr hbit, fun j hj1 hj2 => absurd (Nat.lt_of_lt_of_le hj1 hj2) (by omega)⟩

theorem muE_le (p : Nat) : muE p ≤ 7 := muExponentLoop_le p 7 0x4000

theorem muE_lower (p : Nat) : muE p = 0 ∨ 2 ^ (muE p + 7) ≤ p := by
  have h := (muExponentLoop_spec p 7).1
  rw [show (2 ^ (7 + 7) : Nat) = 0x4000 from rfl] at h
  rcases h with h | h
  · exact Or.inl h
  · exact Or.inr (Nat.testBit_implies_ge h)

theorem muE_upper (p : Nat) (hp : p < 2 ^ 15) : p < 2 ^ (muE p + 8) := by
  have h := (muExponentLoop_spec p 7).2
  rw [show (2 ^ (7 + 7) : Nat) = 0x4000 from rfl] at h
  have hrfl : muE p = muExponentLoop p 7 0x4000 := rfl
  refine Nat.lt_pow_two_of_testBit p fun i hi => ?_
  rcases Nat.lt_or_ge i 15 with hi15 | hi15
  · have h7 : i - 7 ≤ 7 := by omega
    have := h (i - 7) (by omega) h7
    rwa [show i - 7 + 7 = i by omega] at this
  · exact Nat.testBit_lt_two_pow (Nat.lt_of_lt_of_le hp (Nat.pow_le_pow_right (by omega) hi15))

theorem muE_mono {p q : Nat} (hpq : p ≤ q) (hq : q < 2 ^ 15) : muE p ≤ muE q := by
  rcases muE_lower p with h0 | hlow
  · omega
  · have hup : q < 2 ^ (muE q + 8) := muE_upper q hq
    have : (2 : Nat) ^ (muE p + 7) < 2 ^ (muE q + 8) := by
      calc (2 : Nat) ^ (muE p + 7) ≤ p := hlow
        _ ≤ q := hpq
        _ < 2 ^ (muE q + 8) := hup
    have := (Nat.pow_lt_pow_iff_right (by omega : 1 < 2)).mp this
    omega

theorem muM_le (p : Nat) : muM p ≤ 15 := by
  unfold muM
  rw [show (0x0f : Nat) = 2 ^ 4 - 1 from rfl, Nat.and_pow_two_sub_one_eq_mod]
  have := Nat.mod_lt (p >>> (muE p + 3)) (show 0 < 2 ^ 4 by omega)
  omega

theorem muM_eq_mod (p : Nat) : muM p = p / 2 ^ (muE p + 3) % 16 := by
  unfold muM
  rw [Nat.shiftRight_eq_div_pow, show (0x0f : Nat) = 2 ^ 4 - 1 from rfl,
    Nat.and_pow_two_sub_one_eq_mod]

/-- Byte-level bridge, positive sign: decoding the complemented byte that
`mulawEncodeSample` assembles from exponent `e` and mantissa `m` (all 128
combinations enumerated). -/
theorem mulawDecodeByte_pos_byte :
    ∀ (e : Fin 8) (m : Fin 16),
      mulawDecodeByte (255 - (0 ||| (e.val <<< 4) ||| m.val)) =
        (((m.val * 8 + 132) * 2 ^ e.val : Nat) : Int) - 132 := by
  decide

/-- Byte-level bridge, negative sign (sign bit 0x80 set). -/
theorem mulawDecodeByte_neg_byte :
    ∀ (e : Fin 8) (m : Fin 16),
      mulawDecodeByte (255 - (128 ||| (e.val <<< 4) ||| m.val)) =
        -((((m.val * 8 + 132) * 2 ^ e.val : Nat) : Int) - 132) := by
  decide

/-- The per-magnitude error bound: for an uncapped magnitude `a`, the decoder
reconstruction `muD (a + 33)` is within `4 * 2 ^ muE (a + 33) + 99` of `a`. -/
theorem muD_err (a : Nat) (ha : a ≤ 32635) :
    |muD (a + 33) - (a : Int)| ≤ 4 * 2 ^ muE (a + 33) + 99 := by
  set p := a + 33 with hp
  have hplt : p < 2 ^ 15 := by omega
  have hup : p < 2 ^ (muE p + 8) := muE_upper p hplt
  rcases muE_lower p with h0 | hlow
  · -- exponent 0: everything is concrete linear arithmetic
    have h256 : p < 256 := by
      rw [h0] at hup
      simpa using hup
    have hm8 : muM p = p / 8 % 16 := by
      rw [muM_eq_mod, h0]
      norm_num
    unfold muD
    rw [h0, hm8]
    simp only [pow_zero, mul_one]
    rw [abs_le]
    push_cast
    constructor <;> omega
  · -- bit e+7 of p is set: split p into quotient and remainder at 2 ^ (e + 3)
    set e := muE p with hedef
    set P3 : Nat := 2 ^ (e + 3) with hP3
    have hP3pos : 0 < P3 := Nat.pos_pow_of_pos _ (by omega)
    have hm := muM_eq_mod p
    have hq16 : 16 ≤ p / P3 := by
      rw [Nat.le_div_iff_mul_le hP3pos]
      calc 16 * P3 = 2 ^ (e + 7) := by rw [hP3]; ring
        _ ≤ p := hlow
    have hq32 : p / P3 < 32 := by
      rw [Nat.div_lt_iff_lt_mul hP3pos]
      calc p < 2 ^ (e + 8) := hup
        _ = 32 * P3 := by rw [hP3]; ring
    have hsplit := Nat.div_add_mod p P3
    set q := p / P3 with hqdef
    set r := p % P3 with hrdef
    have hrlt : r < P3 := Nat.mod_lt _ hP3pos
    have hqm : muM p = q - 16 := by
      rw [hm]; omega
    have hqmI : (muM p : Int) = (q : Int) - 16 := by
      rw [hqm]; omega
    have hP3I : (P3 : Int) = 8 * 2 ^ e := by
      rw [hP3]; push_cast; ring
    have hpI : (p : Int) = (P3 : Int) * q + r := by
      exact_mod_cast hsplit.symm
    have hDI : muD p = ((muM p : Int) * 8 + 132) * 2 ^ e - 132 := by
      unfold muD
      rw [← hedef]
      push_cast
      ring
    have key : muD p - (a : Int) = 4 * 2 ^ e - 99 - (r : Int) := by
      have hap : (a : Int) = (p : Int) - 33 := by omega
      rw [hDI, hqmI, hap, hpI, hP3I]
      ring
    rw [key]
    have hE1 : (0 : Int) < 2 ^ e := pow_pos (by omega) e
    have hrI : (r : Int) < 8 * 2 ^ e := by
      rw [← hP3I]; exact_mod_cast hrlt
    rw [abs_le]
    constructor <;> omega

theorem mulawEncodeSample_le (x : Int) : mulawEncodeSample x ≤ 255 :=
  Nat.sub_le _ _

theorem mulaw_roundtrip (x : Int) (h1 : -32768 ≤ x) (h2 : x ≤ 32767) :
    |mulawDecodeByte (mulawEncodeSample x) - x| ≤ muBound x.natAbs := by
  rcases Int.lt_or_le x 0 with hneg | hpos
  · by_cases hcap : -32635 ≤ x
    · -- negative, uncapped
      have henc : mulawEncodeSample x =
          255 - (128 ||| (muE (x.natAbs + 33) <<< 4) ||| muM (x.natAbs + 33)) := by
        unfold mulawEncodeSample
        have hx0 : x < 0 := hneg
        have hxc : ¬ -x > 32635 := by omega
        simp only [if_pos hx0, if_neg hxc]
        have hpt : (-x + 33).toNat = x.natAbs + 33 := by omega
        rw [hpt]
        rfl
      have hdec : mulawDecodeByte (mulawEncodeSample x) = -muD (x.natAbs + 33) := by
        rw [henc]
        exact mulawDecodeByte_neg_byte
          ⟨muE (x.natAbs + 33), by have := muE_le (x.natAbs + 33); omega⟩
          ⟨muM (x.natAbs + 33), by have := muM_le (x.natAbs + 33); omega⟩
      have ha : x.natAbs ≤ 32635 := by omega
      have herr := muD_err x.natAbs ha
      have hb : muBound x.natAbs = 4 * 2 ^ muE (x.natAbs + 33) + 99 := if_pos ha
      have hx : x = -(x.natAbs : Int) := by omega
      rw [hdec, hb]
      calc |(-muD (x.natAbs + 33)) - x| = |muD (x.natAbs + 33) - (x.natAbs : Int)| := by
            rw [show (-muD (x.natAbs + 33)) - x = -(muD (x.natAbs + 33) - (x.natAbs : Int)) by omega,
              abs_neg]
        _ ≤ 4 * 2 ^ muE (x.natAbs + 33) + 99 := herr
    · -- negative, capped at -32635
      have henc : mulawEncodeSample x = 0 := by
        unfold mulawEncodeSample
        have hx0 : x < 0 := hneg
        have hxc : -x > 32635 := by omega
        simp only [if_pos hx0, if_pos hxc]
        decide
      have hdec : mulawDecodeByte 0 = -32124 := by decide
      have hb : muBound x.natAbs = 644 := if_neg (by omega)
      rw [henc, hdec, hb, abs_le]
      constructor <;> omega
  · by_cases hcap : x ≤ 32635
    · -- non-negative, uncapped
      have henc : mulawEncodeSample x =
          255 - (0 ||| (muE (x.natAbs + 33) <<< 4) ||| muM (x.natAbs + 33)) := by
        unfold mulawEncodeSample
        have hx0 : ¬ x < 0 := by omega
        have hxc : ¬ x > 32635 := by omega
        simp only [if_neg hx0, if_neg hxc]
        have hpt : (x + 33).toNat = x.natAbs + 33 := by omega
        rw [hpt]
        rfl
      have hdec : mulawDecodeByte (mulawEncodeSample x) = muD (x.natAbs + 33) := by
        rw [henc]
        exact mulawDecodeByte_pos_byte
          ⟨muE (x.natAbs + 33), by have := muE_le (x.natAbs + 33); omega⟩
          ⟨muM (x.natAbs + 33), by have := muM_le (x.natAbs + 33); omega⟩
      have ha : x.natAbs ≤ 32635 := by omega
      have herr := muD_err x.natAbs ha
      have hb : muBound x.natAbs = 4 * 2 ^ muE (x.natAbs + 33) + 99 := if_pos ha
      have hx : (x.natAbs : Int) = x := by omega
      rw [hdec, hb, ← hx]
      exact herr
    · -- capped at 32635
      have henc : mulawEncodeSample x = 128 := by
        unfold mulawEncodeSample
        have hx0 : ¬ x < 0 := by omega
        have hxc : x > 32635 := by omega
        simp only [if_neg hx0, if_pos hxc]
        decide
      have hdec : mulawDecodeByte 128 = 32124 := by decide
      have hb : muBound x.natAbs = 644 := if_neg (by omega)
      rw [henc, hdec, hb, abs_le]
      constructor <;> omega

theorem muBound_mono : Monotone muBound := by
  intro a b hab
  unfold muBound
  by_cases hb : b ≤ 32635
  · have ha : a ≤ 32635 := le_trans hab hb
    rw [if_pos ha, if_pos hb]
    have hE := muE_mono (by omega : a + 33 ≤ b + 33) (by omega : b + 33 < 2 ^ 15)
    have hpow : (2 : Int) ^ muExponentLoop (a + 33) 7 0x4000 ≤
        2 ^ muExponentLoop (b + 33) 7 0x4000 :=
      pow_le_pow_right₀ (by omega) hE
    omega
  · rw [if_neg hb]
    by_cases ha : a ≤ 32635
    · rw [if_pos ha]
      have h7 := muE_le (a + 33)
      have hpow : (2 : Int) ^ muExponentLoop (a + 33) 7 0x4000 ≤ 2 ^ 7 :=
        pow_le_pow_right₀ (by omega) h7
      have h128 : (2 : Int) ^ 7 = 128 := by norm_num
      omega
    · rw [if_neg ha]

/-- **C3, counterexample.** At `x = 0` the claimed bound fails:
`decode(encode(0)) = 32`, while the μ-law quantization step at magnitude 0 is
`8 * 2 ^ 0 = 8`, and `|32 - 0| > 8`.  (The encoder biases by 33 where the
decoder removes a bias of 132, so the round trip is offset for small
magnitudes.) -/
theorem codec_roundtrip_step_counterexample :
    mulawDecodeByte (mulawEncodeSample 0) = 32 ∧ muQuantStep 0 = 8 ∧
      ¬ |mulawDecodeByte (mulawEncodeSample 0) - 0| ≤ muQuantStep 0 := by
  decide

/-- **C3, amended.** `mulawEncodeSample` is total on all int16 inputs
including -32768 and always returns one byte; the round-trip error
`|decode(encode(x)) - x|` is bounded not by the quantization step itself but
by half the step plus a constant offset of 99 (644 on the clamped range
`|x| > 32635`), and that per-magnitude bound is monotonically non-decreasing
in `|x|`. -/
theorem codec_roundtrip_bounded :
    (∀ x : Int, -32768 ≤ x → x ≤ 32767 →
        mulawEncodeSample x < 256 ∧
          |mulawDecodeByte (mulawEncodeSample x) - x| ≤ muBound x.natAbs) ∧
      Monotone muBound :=
  ⟨fun x h1 h2 =>
    ⟨Nat.lt_of_le_of_lt (mulawEncodeSample_le x) (by omega), mulaw_roundtrip x h1 h2⟩,
   muBound_mono⟩

/-- Witness for `codec_roundtrip_bounded` at the concrete input `x = -32768`. -/
theorem codec_roundtrip_bounded_witness :
    (-32768 : Int) ≤ -32768 ∧ (-32768 : Int) ≤ 32767 ∧
      (mulawEncodeSample (-32768) < 256 ∧
        |mulawDecodeByte (mulawEncodeSample (-32768)) - (-32768)| ≤ muBound (-32768 : Int).natAbs) :=
  ⟨by decide, by decide, codec_roundtrip_bounded.1 (-32768) (by decide) (by decide)⟩

/-! ## Claims C4 and C10: upsampling -/

theorem upsample8kTo16k_length (s : List Int) :
    (upsample8kTo16k s).length = 2 * s.length := by
  induction s with
  | nil => rfl
  | cons a t ih =>
    cases t with
    | nil => rfl
    | cons b u =>
      simp only [upsample8kTo16k, List.length_cons] at ih ⊢
      omega

theorem upsample8kTo16k_getD (i : Nat) :
    ∀ s : List Int, i + 1 < s.length →
      (upsample8kTo16k s).getD (2 * i) 0 = wrap16 (s.getD i 0) ∧
      (upsample8kTo16k s).getD (2 * i + 1) 0 =
        wrap16 (midRound (s.getD i 0) (s.getD (i + 1) 0)) := by
  induction i with
  | zero =>
    intro s hs
    cases s with
    | nil => simp at hs
    | cons a t =>
      cases t with
      | nil => simp only [List.length_cons, List.length_nil] at hs; omega
      | cons b u => exact ⟨rfl, rfl⟩
  | succ i ih =>
    intro s hs
    cases s with
    | nil => simp at hs
    | cons a t =>
      cases t with
      | nil => simp only [List.length_cons, List.length_nil] at hs; omega
      | cons b u =>
        have hr : i + 1 < (b :: u).length := by
          simp only [List.length_cons] at hs ⊢; omega
        have h2 : 2 * (i + 1) = 2 * i + 1 + 1 := by ring
        have h2' : 2 * (i + 1) + 1 = 2 * i + 1 + 1 + 1 := by ring
        obtain ⟨ihe, iho⟩ := ih (b :: u) hr
        refine ⟨?_, ?_⟩
        · rw [h2]
          simp only [upsample8kTo16k, List.getD_cons_succ]
          exact ihe
        · rw [h2']
          simp only [upsample8kTo16k, List.getD_cons_succ]
          exact iho

theorem upsample8kTo16k_last (s : List Int) (hs : s ≠ []) :
    (upsample8kTo16k s).getD (2 * s.length - 2) 0 = wrap16 (s.getD (s.length - 1) 0) ∧
    (upsample8kTo16k s).getD (2 * s.length - 1) 0 = wrap16 (s.getD (s.length - 1) 0) := by
  induction s with
  | nil => exact absurd rfl hs
  | cons a t ih =>
    cases t with
    | nil => exact ⟨rfl, rfl⟩
    | cons b u =>
      obtain ⟨ih1, ih2⟩ := ih (by simp)
      have hlen : (a :: b :: u).length - 1 = ((b :: u).length - 1) + 1 := by
        simp only [List.length_cons]; omega
      refine ⟨?_, ?_⟩
      · have hidx : 2 * (a :: b :: u).length - 2 = (2 * (b :: u).length - 2) + 1 + 1 := by
          simp only [List.length_cons]; omega
        rw [hidx, hlen]
        simp only [upsample8kTo16k, List.getD_cons_succ]
        exact ih1
      · have hidx : 2 * (a :: b :: u).length - 1 = (2 * (b :: u).length - 1) + 1 + 1 := by
          simp only [List.length_cons]; omega
        rw [hidx, hlen]
        simp only [upsample8kTo16k, List.getD_cons_succ]
        exact ih2

theorem getD_mem_of_lt {s : List Int} {i : Nat} (h : i < s.length) : s.getD i 0 ∈ s := by
  rw [List.getD_eq_getElem s 0 h]
  exact List.getElem_mem h

theorem map_wrap16_eq_self (s : List Int) (hs : ∀ v ∈ s, -32768 ≤ v ∧ v ≤ 32767) :
    s.map wrap16 = s := by
  induction s with
  | nil => rfl
  | cons a t ih =>
    have ha := hs a (by simp)
    have ht : ∀ v ∈ t, -32768 ≤ v ∧ v ≤ 32767 := fun v hv => hs v (by simp [hv])
    simp only [List.map_cons, wrap16_eq_self ha.1 ha.2, ih ht]

/-- **C4.** `upsample8kTo16k` doubles the length, emits `s[i]` then
`round((s[i]+s[i+1])/2)` for each adjacent pair, duplicates the last sample
in the final output pair, maps `[]` to `[]` and a singleton to its
duplication. -/
theorem upsample2x_spec (s : List Int) (hs : ∀ v ∈ s, -32768 ≤ v ∧ v ≤ 32767) :
    (upsample8kTo16k s).length = 2 * s.length ∧
    (∀ i, i + 1 < s.length →
      (upsample8kTo16k s).getD (2 * i) 0 = s.getD i 0 ∧
      (upsample8kTo16k s).getD (2 * i + 1) 0 = midRound (s.getD i 0) (s.getD (i + 1) 0)) ∧
    (s ≠ [] →
      (upsample8kTo16k s).getD (2 * s.length - 2) 0 = s.getD (s.length - 1) 0 ∧
      (upsample8kTo16k s).getD (2 * s.length - 1) 0 = s.getD (s.length - 1) 0) ∧
    upsample8kTo16k ([] : List Int) = [] ∧
    (∀ v : Int, -32768 ≤ v → v ≤ 32767 → upsample8kTo16k [v] = [v, v]) := by
  refine ⟨upsample8kTo16k_length s, fun i hi => ?_, fun hne => ?_, rfl, fun v hv1 hv2 => ?_⟩
  · obtain ⟨he, ho⟩ := upsample8kTo16k_getD i s hi
    have hmi := hs _ (getD_mem_of_lt (show i < s.length by omega))
    have hmj := hs _ (getD_mem_of_lt (show i + 1 < s.length by omega))
    have hmid := midRound_mem_int16 hmi.1 hmi.2 hmj.1 hmj.2
    rw [he, ho, wrap16_eq_self hmi.1 hmi.2, wrap16_eq_self hmid.1 hmid.2]
    exact ⟨rfl, rfl⟩
  · obtain ⟨he, ho⟩ := upsample8kTo16k_last s hne
    have hlt : s.length - 1 < s.length := by
      cases s with
      | nil => exact absurd rfl hne
      | cons a t => simp
    have hm := hs _ (getD_mem_of_lt hlt)
    rw [he, ho, wrap16_eq_self hm.1 hm.2]
    exact ⟨rfl, rfl⟩
  · simp only [upsample8kTo16k, wrap16_eq_self hv1 hv2]

/-- Witness for `upsample2x_spec` at the concrete input `[100, -200, 300]`. -/
theorem upsample2x_spec_witness :
    (∀ v ∈ ([100, -200, 300] : List Int), -32768 ≤ v ∧ v ≤ 32767) ∧
      (upsample8kTo16k [100, -200, 300]).length = 2 * ([100, -200, 300] : List Int).length :=
  ⟨by decide, (upsample2x_spec [100, -200, 300] (by decide)).1⟩

theorem downsample16kTo8k_upsample (s : List Int) :
    downsample16kTo8k (upsample8kTo16k s) = s.map wrap16 ∧
    Part0.downsample16kTo8k (upsample8kTo16k s) = s.map wrap16 := by
  induction s with
  | nil => exact ⟨rfl, rfl⟩
  | cons a t ih =>
    cases t with
    | nil => exact ⟨rfl, rfl⟩
    | cons b u =>
      obtain ⟨ih1, ih2⟩ := ih
      refine ⟨?_, ?_⟩
      · simp only [upsample8kTo16k, downsample16kTo8k, List.map_cons]
        rw [← List.map_cons wrap16 b u, ih1]
      · simp only [upsample8kTo16k, Part0.downsample16kTo8k, List.map_cons]
        rw [← List.map_cons wrap16 b u, ih2]

/-- **C10.** Downsampling after upsampling is the identity on int16 sample
sequences, for the `src/index.js` decimator and the `src/unnamed/part_000`
variant alike (the upsampled list always has even length, where the two
agree), including the empty and singleton cases. -/
theorem downsample2x_upsample2x_roundtrip (s : List Int)
    (hs : ∀ v ∈ s, -32768 ≤ v ∧ v ≤ 32767) :
    downsample16kTo8k (upsample8kTo16k s) = s ∧
    Part0.downsample16kTo8k (upsample8kTo16k s) = s := by
  obtain ⟨h1, h2⟩ := downsample16kTo8k_upsample s
  rw [h1, h2, map_wrap16_eq_self s hs]
  exact ⟨rfl, rfl⟩

/-- Witness for `downsample2x_upsample2x_roundtrip` at `[7, -32768, 32767]`. -/
theorem downsample2x_upsample2x_roundtrip_witness :
    (∀ v ∈ ([7, -32768, 32767] : List Int), -32768 ≤ v ∧ v ≤ 32767) ∧
      downsample16kTo8k (upsample8kTo16k [7, -32768, 32767]) = [7, -32768, 32767] :=
  ⟨by decide, (downsample2x_upsample2x_roundtrip [7, -32768, 32767] (by decide)).1⟩

/-! ## Claims C5 and C9: ratio decimation and the 24 kHz pipeline -/

theorem floor_cast_mul_div (a b c : Nat) :
    (⌊(a : ℚ) * b / c⌋).toNat = a * b / c := by
  rcases Nat.eq_zero_or_pos c with hc | hc
  · subst hc
    simp
  · rw [Int.floor_toNat, show ((a : ℚ) * b) = ((a * b : ℕ) : ℚ) by push_cast; ring,
      Nat.floor_div_nat, Nat.floor_natCast]

theorem downsample_length (s : List Int) (fromRate toRate : Nat) (h : toRate < fromRate) :
    (downsample s fromRate toRate).length = s.length * toRate / fromRate := by
  unfold downsample
  rw [if_neg (by omega : ¬ fromRate = toRate)]
  simp only [List.length_map, List.length_range]
  rw [div_div_eq_mul_div]
  exact floor_cast_mul_div s.length toRate fromRate

theorem getD_map_range {α : Type} (f : Nat → α) (n i : Nat) (d : α) (h : i < n) :
    ((List.range n).map f).getD i d = f i := by
  rw [List.getD_eq_getElem _ d (by simpa using h), List.getElem_map, List.getElem_range]

theorem downsample_getD (s : List Int) (fromRate toRate : Nat) (h : toRate < fromRate)
    (i : Nat) (hi : i < s.length * toRate / fromRate) :
    (downsample s fromRate toRate).getD i 0 = s.getD (i * fromRate / toRate) 0 := by
  have hne : ¬ fromRate = toRate := by omega
  have hN : (⌊(s.length : ℚ) / ((fromRate : ℚ) / (toRate : ℚ))⌋).toNat =
      s.length * toRate / fromRate := by
    rw [div_div_eq_mul_div]
    exact floor_cast_mul_div s.length toRate fromRate
  simp only [downsample, hne, if_false]
  rw [getD_map_range _ _ i 0 (by rw [hN]; exact hi)]
  congr 1
  rw [mul_div_assoc']
  exact floor_cast_mul_div i fromRate toRate

/-- **C5.** For `fromRate > toRate`, `downsample` has length
`⌊len / (fromRate/toRate)⌋ = len * toRate / fromRate` and picks the sample at
`⌊i * fromRate/toRate⌋ = i * fromRate / toRate`; for equal rates it returns
the input unchanged.  (The JavaScript real-valued ratio is modelled in exact
rational arithmetic.) -/
theorem downsample_spec :
    (∀ (s : List Int) (fromRate toRate : Nat), toRate < fromRate →
        (downsample s fromRate toRate).length = s.length * toRate / fromRate ∧
        ∀ i, i < s.length * toRate / fromRate →
          (downsample s fromRate toRate).getD i 0 = s.getD (i * fromRate / toRate) 0) ∧
    ∀ (s : List Int) (r : Nat), downsample s r r = s := by
  refine ⟨fun s f t ht => ⟨downsample_length s f t ht, fun i hi => downsample_getD s f t ht i hi⟩,
    fun s r => ?_⟩
  unfold downsample
  rw [if_pos rfl]

/-- Witness for `downsample_spec` at `[10, 20, 30]` with rates 3 → 2. -/
theorem downsample_spec_witness :
    (2 : Nat) < 3 ∧
      (downsample [10, 20, 30] 3 2).length = ([10, 20, 30] : List Int).length * 2 / 3 :=
  ⟨by decide, (downsample_spec.1 [10, 20, 30] 3 2 (by decide)).1⟩

/-- **C9.** A backend audio message declaring rate 24000 with 120 PCM16
samples comes out of the `downsample` → `downsample16kTo8k` → per-sample
μ-law encode pipeline as exactly `⌊120 * 16000 / 24000⌋ / 2 = 40` μ-law
bytes, with every output a valid byte; the pipeline is a total function, so
no exception is raised. -/
theorem gemini24k_pipeline (s : List Int) (hs : s.length = 120) :
    (convertGeminiAudioToMulaw s 24000).length = 40 ∧
      ∀ b ∈ convertGeminiAudioToMulaw s 24000, b < 256 := by
  unfold convertGeminiAudioToMulaw
  rw [if_pos rfl]
  refine ⟨?_, fun b hb => ?_⟩
  · rw [List.length_map, downsample16kTo8k_length,
      downsample_length s 24000 16000 (by omega), hs]
  · rcases List.mem_map.mp hb with ⟨x, _, rfl⟩
    exact Nat.lt_of_le_of_lt (mulawEncodeSample_le x) (by omega)

/-- Witness for `gemini24k_pipeline` at 120 zero samples. -/
theorem gemini24k_pipeline_witness :
    (List.replicate 120 (0 : Int)).length = 120 ∧
      (convertGeminiAudioToMulaw (List.replicate 120 0) 24000).length = 40 :=
  ⟨by simp, (gemini24k_pipeline (List.replicate 120 0) (by simp)).1⟩

/-! ## Claims C6, C7 and C8: session behaviour -/

theorem convertMulawToPcm16k_length (payload : List Nat) :
    (convertMulawToPcm16k payload).length = 2 * payload.length := by
  unfold convertMulawToPcm16k
  rw [upsample8kTo16k_length, List.length_map]

theorem convertMulawToPcm16k_ne_nil {payload : List Nat} (h : payload ≠ []) :
    convertMulawToPcm16k payload ≠ [] := by
  intro hc
  have hlen := convertMulawToPcm16k_length payload
  rw [hc] at hlen
  simp only [List.length_nil] at hlen
  have hl : payload.length = 0 := by omega
  exact h (List.length_eq_zero.mp hl)

theorem flushPendingAudio_pending (st : RelayState) :
    (flushPendingAudio st).pendingAudio = [] := by
  unfold flushPendingAudio
  split
  · assumption
  · rfl

theorem flushPendingAudio_idem (st : RelayState) :
    flushPendingAudio (flushPendingAudio st) = flushPendingAudio st := by
  have h := flushPendingAudio_pending st
  nth_rewrite 1 [flushPendingAudio.eq_def]
  rw [if_pos h]

/-- **C6.** Frames arriving before backend readiness are queued; on
`onopen` they are flushed to the backend in arrival order ahead of any later
live frame, and the flush is one-shot: a flushed buffer is empty and
flushing again changes nothing. -/
theorem buffered_frames_ordered (t1 t2 t3 t4 : List Nat)
    (h1 : t1 ≠ []) (h2 : t2 ≠ []) (h3 : t3 ≠ []) (h4 : t4 ≠ []) :
    (run initState [.twilioMedia t1, .twilioMedia t2, .twilioMedia t3, .geminiOpen,
        .twilioMedia t4]).sentToGemini =
      [convertMulawToPcm16k t1, convertMulawToPcm16k t2, convertMulawToPcm16k t3,
        convertMulawToPcm16k t4] ∧
    (run initState [.twilioMedia t1, .twilioMedia t2, .twilioMedia t3, .geminiOpen,
        .twilioMedia t4]).pendingAudio = [] ∧
    (∀ st : RelayState, (flushPendingAudio st).pendingAudio = [] ∧
      flushPendingAudio (flushPendingAudio st) = flushPendingAudio st) := by
  have hc1 := convertMulawToPcm16k_ne_nil h1
  have hc2 := convertMulawToPcm16k_ne_nil h2
  have hc3 := convertMulawToPcm16k_ne_nil h3
  have hc4 := convertMulawToPcm16k_ne_nil h4
  refine ⟨?_, ?_, fun st => ⟨flushPendingAudio_pending st, flushPendingAudio_idem st⟩⟩
  · simp [run, step, initState, sendAudioChunkToGemini, flushPendingAudio, hc1, hc2, hc3, hc4]
  · simp [run, step, initState, sendAudioChunkToGemini, flushPendingAudio, hc1, hc2, hc3, hc4]

/-- Witness for `buffered_frames_ordered` at four concrete one-byte frames. -/
theorem buffered_frames_ordered_witness :
    ([0] : List Nat) ≠ [] ∧
      (run initState [.twilioMedia [0], .twilioMedia [1], .twilioMedia [2], .geminiOpen,
          .twilioMedia [3]]).sentToGemini =
        [convertMulawToPcm16k [0], convertMulawToPcm16k [1], convertMulawToPcm16k [2],
          convertMulawToPcm16k [3]] :=
  ⟨by decide,
    (buffered_frames_ordered [0] [1] [2] [3] (by decide) (by decide) (by decide) (by decide)).1⟩

/-- The wsCloseCalls invariant: the Twilio socket is closed at most once,
and not at all while it is still open. -/
def wsInv (st : RelayState) : Prop :=
  (st.wsOpen = true → st.wsCloseCalls = 0) ∧ st.wsCloseCalls ≤ 1

theorem wsInv_of_proj {a b : RelayState} (ho : a.wsOpen = b.wsOpen)
    (hc : a.wsCloseCalls = b.wsCloseCalls) (h : wsInv b) : wsInv a := by
  obtain ⟨h0, h1⟩ := h
  exact ⟨fun hw => by rw [hc]; exact h0 (by rw [← ho]; exact hw), by rw [hc]; exact h1⟩

theorem sendAudioChunkToGemini_wsProj (st : RelayState) (chunk : List Int) :
    (sendAudioChunkToGemini st chunk).wsOpen = st.wsOpen ∧
    (sendAudioChunkToGemini st chunk).wsCloseCalls = st.wsCloseCalls := by
  unfold sendAudioChunkToGemini
  split
  · exact ⟨rfl, rfl⟩
  · exact ⟨rfl, rfl⟩

theorem forwardGeminiPart_wsProj (sid : String) (st : RelayState) (part : GeminiPart) :
    (forwardGeminiPart sid st part).wsOpen = st.wsOpen ∧
    (forwardGeminiPart sid st part).wsCloseCalls = st.wsCloseCalls := by
  unfold forwardGeminiPart
  cases hca : part.audio with
  | none => exact ⟨rfl, rfl⟩
  | some a =>
    obtain ⟨samples, rate⟩ := a
    simp only []
    split
    · exact ⟨rfl, rfl⟩
    · split
      · exact ⟨rfl, rfl⟩
      · exact ⟨rfl, rfl⟩

theorem foldl_wsProj {β : Type} (f : RelayState → β → RelayState)
    (hf : ∀ st b, (f st b).wsOpen = st.wsOpen ∧ (f st b).wsCloseCalls = st.wsCloseCalls)
    (l : List β) : ∀ st, (l.foldl f st).wsOpen = st.wsOpen ∧
      (l.foldl f st).wsCloseCalls = st.wsCloseCalls := by
  induction l with
  | nil => exact fun st => ⟨rfl, rfl⟩
  | cons c cs ih =>
    intro st
    rw [List.foldl_cons]
    obtain ⟨ho, hc⟩ := ih (f st c)
    obtain ⟨ho2, hc2⟩ := hf st c
    exact ⟨ho.trans ho2, hc.trans hc2⟩

theorem flushPendingAudio_wsProj (st : RelayState) :
    (flushPendingAudio st).wsOpen = st.wsOpen ∧
    (flushPendingAudio st).wsCloseCalls = st.wsCloseCalls := by
  unfold flushPendingAudio
  split
  · exact ⟨rfl, rfl⟩
  · exact foldl_wsProj sendAudioChunkToGemini sendAudioChunkToGemini_wsProj st.pendingAudio st

theorem step_wsInv (st : RelayState) (e : RelayEvent) (h : wsInv st) : wsInv (step st e) := by
  cases e with
  | twilioStart sid => exact wsInv_of_proj rfl rfl h
  | twilioMedia payload =>
    simp only [step]
    split
    · exact h
    · split
      · exact h
      · split
        · obtain ⟨ho, hc⟩ := sendAudioChunkToGemini_wsProj st (convertMulawToPcm16k payload)
          exact wsInv_of_proj ho hc h
        · exact wsInv_of_proj rfl rfl h
  | twilioStop =>
    simp only [step]
    split
    · exact wsInv_of_proj rfl rfl h
    · exact h
  | twilioWsClosed =>
    simp only [step]
    split
    · exact wsInv_of_proj rfl rfl h
    · exact h
  | geminiOpen =>
    simp only [step]
    obtain ⟨ho, hc⟩ := flushPendingAudio_wsProj { st with sessionReady := true }
    exact wsInv_of_proj ho hc h
  | geminiMessage parts =>
    simp only [step]
    unfold handleGeminiMessage
    cases parts with
    | none => exact h
    | some ps =>
      cases hsid : st.streamSid with
      | none => exact h
      | some sid =>
        obtain ⟨ho, hc⟩ := foldl_wsProj (forwardGeminiPart sid) (forwardGeminiPart_wsProj sid) ps st
        exact wsInv_of_proj ho hc h
  | geminiClosed =>
    obtain ⟨h0, h1⟩ := h
    simp only [step]
    split
    · rename_i hw
      have hz : st.wsCloseCalls = 0 := h0 hw
      unfold wsInv
      dsimp only
      refine ⟨fun hfalse => by simp at hfalse, by omega⟩
    · exact ⟨h0, h1⟩

theorem run_wsInv (events : List RelayEvent) : ∀ st, wsInv st → wsInv (run st events) := by
  induction events with
  | nil => exact fun st h => h
  | cons e es ih => exact fun st h => ih (step st e) (step_wsInv st e h)

/-- **C7, counterexample.** The stop-then-socket-close sequence calls
`geminiSession.close()` twice, not exactly once: the `stop` handler closes
the session, and the subsequent `ws` `close` handler closes it again (the
handle is never nulled out and no state machine tracks `Closed`). -/
theorem session_close_twice_counterexample :
    (run initState [.twilioStop, .geminiClosed, .twilioWsClosed]).geminiCloseCalls = 2 ∧
      ¬ (run initState
          [.twilioStop, .geminiClosed, .twilioWsClosed]).geminiCloseCalls = 1 := by
  decide

/-- **C7, amended.** The double close path raises no error and closes the
Twilio socket exactly once — on every event trace the socket is closed at
most once — but the backend handle's `close()` is invoked once per close
signal (twice in the stop-then-socket-close scenario); idempotence of the
backend close is delegated to the SDK rather than guaranteed by the
session. -/
theorem session_close_effects :
    (run initState [.twilioStop, .geminiClosed, .twilioWsClosed]).geminiCloseCalls = 2 ∧
    (run initState [.twilioStop, .geminiClosed, .twilioWsClosed]).wsCloseCalls = 1 ∧
    ∀ events : List RelayEvent, (run initState events).wsCloseCalls ≤ 1 := by
  refine ⟨by decide, by decide, fun events => ?_⟩
  exact (run_wsInv events initState ⟨fun _ => rfl, by decide⟩).2

/-- **C8.** A backend message arriving while no `streamSid` is assigned is
dropped whole: the handler returns with the session state unchanged and
nothing forwarded to the telephony side. -/
theorem backend_audio_dropped_without_sid (st : RelayState)
    (parts : Option (List GeminiPart)) (h : st.streamSid = none) :
    step st (.geminiMessage parts) = st := by
  show handleGeminiMessage st parts = st
  unfold handleGeminiMessage
  cases parts with
  | none => rfl
  | some ps => rw [h]

/-- Witness for `backend_audio_dropped_without_sid`: a fresh session (no
`start` event yet) receiving an audio part at rate 24000. -/
theorem backend_audio_dropped_without_sid_witness :
    initState.streamSid = none ∧
      step initState (.geminiMessage (some [⟨some ([1, 2], 24000), none⟩])) = initState :=
  ⟨rfl, backend_audio_dropped_without_sid initState (some [⟨some ([1, 2], 24000), none⟩]) rfl⟩
